import Mathlib

/- Verification development for the AutoM8 terminal front-end.

   Shallow embedding of the program's core data structures and algorithms:
   - the output pane's byte-stream normalisation and bounded line buffer
     (autom8_pkg/ui/panes.py, class OutputPane),
   - the ansible command compiler and its environment side effect
     (autom8_pkg/core/runner.py, build_ansible_cmd),
   - the inventory tree with tri-state checkboxes and the selection
     extraction algorithms (autom8_pkg/ui/tree.py, TreeNode and TreePane).

   Python strings are Lean Strings, byte strings are List Nat (each entry a
   byte value), dicts used as tree descriptors are an explicit Raw inductive,
   the process environment is a lookup function, and in-place mutation is
   modelled by state passing.  Exceptions are modelled with Except. -/

namespace AutoM8

/-! ## Generic list helpers -/

/-- Last `k` elements of a list (Python `l[-k:]` for `k ≥ 1`). -/
def takeLast (k : Nat) (l : List α) : List α := l.drop (l.length - k)

/-- Python `l[-k:]`: for `k = 0` the slice `[-0:]` is the whole list. -/
def pyTailSlice (k : Nat) (l : List α) : List α :=
  if k == 0 then l else takeLast k l

/-- De-duplication keeping the first occurrence, with an accumulator of names
    already seen (the `seen`/`uniq` loop of get_selected_limit_patterns). -/
def dedupFirstAux : List String → List String → List String
  | _, [] => []
  | seen, x :: xs =>
    if seen.contains x then dedupFirstAux seen xs
    else x :: dedupFirstAux (x :: seen) xs

/-- De-duplicate a list of strings preserving first-seen order. -/
def dedupFirst (l : List String) : List String := dedupFirstAux [] l

/-- Insertion into a sorted list of strings (code-point lexicographic order,
    the order Python's `sorted` uses on str). -/
def insertStr (x : String) : List String → List String
  | [] => [x]
  | y :: ys => if x ≤ y then x :: y :: ys else y :: insertStr x ys

/-- Insertion sort on strings, modelling Python `sorted`. -/
def sortStr : List String → List String
  | [] => []
  | x :: xs => insertStr x (sortStr xs)

/-! ## UTF-8 decoding with errors="ignore"

    `bytes.decode(errors="ignore")` never raises: every maximal invalid
    subpart is silently skipped.  `seqStep` classifies the sequence starting
    at the head of the byte list: it returns how many bytes the decoder
    consumes (always at least 1) and the decoded character, if any. -/

/-- A UTF-8 continuation byte. -/
def isCont (b : Nat) : Bool := 0x80 ≤ b && b ≤ 0xBF

/-- One step of CPython's UTF-8 decoder with errors="ignore": number of bytes
    consumed and the character produced (none for an invalid subpart). -/
def seqStep : List Nat → Nat × Option Char
  | [] => (1, none)
  | b :: rest =>
    if b ≤ 0x7F then (1, some (Char.ofNat b))
    else if b ≤ 0xC1 then (1, none)
    else if b ≤ 0xDF then
      match rest with
      | b1 :: _ =>
        if isCont b1 then (2, some (Char.ofNat ((b - 0xC0) * 0x40 + (b1 - 0x80))))
        else (1, none)
      | [] => (1, none)
    else if b ≤ 0xEF then
      let lo := if b == 0xE0 then 0xA0 else 0x80
      let hi := if b == 0xED then 0x9F else 0xBF
      match rest with
      | b1 :: rest1 =>
        if lo ≤ b1 && b1 ≤ hi then
          match rest1 with
          | b2 :: _ =>
            if isCont b2 then
              (3, some (Char.ofNat ((b - 0xE0) * 0x1000 + (b1 - 0x80) * 0x40 + (b2 - 0x80))))
            else (2, none)
          | [] => (2, none)
        else (1, none)
      | [] => (1, none)
    else if b ≤ 0xF4 then
      let lo := if b == 0xF0 then 0x90 else 0x80
      let hi := if b == 0xF4 then 0x8F else 0xBF
      match rest with
      | b1 :: rest1 =>
        if lo ≤ b1 && b1 ≤ hi then
          match rest1 with
          | b2 :: rest2 =>
            if isCont b2 then
              match rest2 with
              | b3 :: _ =>
                if isCont b3 then
                  (4, some (Char.ofNat ((b - 0xF0) * 0x40000 + (b1 - 0x80) * 0x1000 +
                    (b2 - 0x80) * 0x40 + (b3 - 0x80))))
                else (3, none)
              | [] => (3, none)
            else (2, none)
          | [] => (2, none)
        else (1, none)
      | [] => (1, none)
    else (1, none)

/-- Decoder loop.  The fuel is bounded below by the list length; every step
    consumes at least one byte, so fuel `l.length` always suffices and the
    `max 1` never changes the consumed count. -/
def decodeAux : Nat → List Nat → List Char
  | 0, _ => []
  | _, [] => []
  | fuel + 1, b :: bs =>
    let r := seqStep (b :: bs)
    (match r.2 with | some c => [c] | none => []) ++
      decodeAux fuel (List.drop (max 1 r.1 - 1) bs)

/-- `chunk.decode(errors="ignore")`: total, never raises, drops invalid
    byte sequences. -/
def pyDecodeIgnore (chunk : List Nat) : String := ⟨decodeAux chunk.length chunk⟩

/-! ## ANSI escape stripping

    OutputPane strips sequences ESC, open bracket, any run of parameter
    bytes 0x30–0x3F, any run of intermediate bytes 0x20–0x2F, one final byte
    0x40–0x7E (panes.py, `self._ansi_re`).  The three character classes are
    disjoint, so the regex is equivalent to the deterministic maximal-munch
    scanner below. -/

/-- CSI parameter byte class, 0x30–0x3F. -/
def isCSIParam (c : Char) : Bool := 0x30 ≤ c.toNat && c.toNat ≤ 0x3F

/-- CSI intermediate byte class, 0x20–0x2F. -/
def isCSIInter (c : Char) : Bool := 0x20 ≤ c.toNat && c.toNat ≤ 0x2F

/-- CSI final byte class, 0x40–0x7E. -/
def isCSIFinal (c : Char) : Bool := 0x40 ≤ c.toNat && c.toNat ≤ 0x7E

/-- Try to match params-intermediates-final at the head of `cs` (the text
    following an ESC + open bracket); on success return the remainder after
    the final byte. -/
def matchCSI (cs : List Char) : Option (List Char) :=
  match (cs.dropWhile isCSIParam).dropWhile isCSIInter with
  | c :: rest => if isCSIFinal c then some rest else none
  | [] => none

/-- ANSI stripping loop (fuel bounded below by the list length; a match
    consumes at least three characters, a non-match emits one). -/
def ansiStripAux : Nat → List Char → List Char
  | 0, l => l
  | _, [] => []
  | fuel + 1, c :: cs =>
    if c == '\x1b' then
      match cs with
      | b :: rest =>
        if b == '[' then
          match matchCSI rest with
          | some r => ansiStripAux fuel r
          | none => c :: ansiStripAux fuel cs
        else c :: ansiStripAux fuel cs
      | [] => [c]
    else c :: ansiStripAux fuel cs

/-- Remove every ANSI escape sequence, as `self._ansi_re.sub("", s)` does. -/
def ansiStrip (cs : List Char) : List Char := ansiStripAux cs.length cs

/-! ## Python str.splitlines -/

/-- A `str.splitlines` line boundary character. -/
def isLineBreakChar (c : Char) : Bool :=
  c == '\n' || c == '\r' || c.toNat == 0x0B || c.toNat == 0x0C ||
  c.toNat == 0x1C || c.toNat == 0x1D || c.toNat == 0x1E ||
  c.toNat == 0x85 || c.toNat == 0x2028 || c.toNat == 0x2029

/-- `str.splitlines` scanner; `acc` is the current line reversed.  A CR-LF
    pair counts as a single boundary and a trailing unterminated piece is
    kept. -/
def splitLinesAux : List Char → List Char → List (List Char)
  | [], acc => if acc.isEmpty then [] else [acc.reverse]
  | [c], acc =>
    if c == '\r' then [acc.reverse]
    else if isLineBreakChar c then [acc.reverse]
    else [(c :: acc).reverse]
  | c :: d :: cs2, acc =>
    if c == '\r' then
      if d == '\n' then acc.reverse :: splitLinesAux cs2 []
      else acc.reverse :: splitLinesAux (d :: cs2) []
    else if isLineBreakChar c then acc.reverse :: splitLinesAux (d :: cs2) []
    else splitLinesAux (d :: cs2) (c :: acc)

/-- Python `s.splitlines()`. -/
def pySplitlines (s : String) : List String :=
  (splitLinesAux s.data []).map fun l => ⟨l⟩

/-! ## OutputPane (panes.py) -/

/-- The output pane state: buffered display lines, the line-count bound and
    the scroll offset (0 = follow tail).  The curses window is irrelevant to
    the claims and is omitted. -/
structure OutputPane where
  lines : List String
  max_lines : Nat
  scroll : Nat

/-- A freshly constructed pane (`OutputPane.__init__`). -/
def mkOutputPane (maxLines : Nat) : OutputPane := ⟨[], maxLines, 0⟩

/-- `OutputPane._clean_text`: strip ANSI sequences, then if the text contains
    a carriage return keep only the part after the last one
    (`s.split("\r")[-1]`). -/
def clean_text (s : String) : String :=
  let t := ansiStrip s.data
  let t := if '\r' ∈ t then (t.reverse.takeWhile (fun c => c != '\r')).reverse else t
  ⟨t⟩

/-- `OutputPane.append_bytes`: decode (errors="ignore"), clean, split into
    lines, append each, then truncate with `self.lines[-self.max_lines:]`
    when the bound is exceeded. -/
def append_bytes (p : OutputPane) (chunk : List Nat) : OutputPane :=
  let text := pyDecodeIgnore chunk
  let text := clean_text text
  let ls := p.lines ++ pySplitlines text
  let ls := if p.max_lines < ls.length then pyTailSlice p.max_lines ls else ls
  { p with lines := ls }

/-- The buffered lines a single chunk contributes. -/
def producedLines (chunk : List Nat) : List String :=
  pySplitlines (clean_text (pyDecodeIgnore chunk))

/-! ## Command compiler (runner.py) -/

/-- The process environment, as a lookup function. -/
abbrev Env := String → Option String

/-- `os.environ.update(extra)`: bindings in `extra` override `env`. -/
def envUpdate (env : Env) (extra : List (String × String)) : Env :=
  fun k => match extra.lookup k with | some v => some v | none => env k

/-- Python truthiness of an optional string: `None` and `""` are falsy. -/
def pyTruthyOptStr : Option String → Bool
  | none => false
  | some s => !(s == "")

/-- `build_ansible_cmd` (runner.py).  Returns the command vector together
    with the process environment after the call: the Python function mutates
    `os.environ` when `extra_env` is truthy, so the environment is threaded
    explicitly. -/
def build_ansible_cmd (playbook_path inventory : String) (hosts : List String)
    (ask_vault : Bool) (vault_password_file : Option String)
    (extra_env : List (String × String)) (env : Env) : List String × Env :=
  let cmd := ["ansible-playbook", "-i", inventory, playbook_path]
  let cmd := if hosts.isEmpty then cmd else cmd ++ ["--limit", String.intercalate "," hosts]
  let cmd :=
    if pyTruthyOptStr vault_password_file then
      cmd ++ ["--vault-password-file", vault_password_file.getD ""]
    else if ask_vault then cmd ++ ["--ask-vault-pass"]
    else cmd
  let env2 := if extra_env.isEmpty then env else envUpdate env extra_env
  (cmd, env2)

/-! ## Inventory tree (tree.py)

    `TreeNode` carries name, kind ("group" or "host", kept as an arbitrary
    string because `from_dict` performs no validation), the expansion flag
    and the tri-state check value 0/1/2.  Children are a bespoke list type so
    that all recursions are structural and computable by the kernel.  The
    Python parent back-references are represented by recomputing ancestor
    states on the way back up a path. -/

mutual
inductive TreeNode where
  | node (name kind : String) (expanded : Bool) (checked : Nat) (children : TreeList)
inductive TreeList where
  | nil
  | cons (hd : TreeNode) (tl : TreeList)
end

/-- Node name accessor. -/
def TreeNode.name : TreeNode → String
  | .node n _ _ _ _ => n

/-- Node kind accessor. -/
def TreeNode.kind : TreeNode → String
  | .node _ k _ _ _ => k

/-- Node expansion flag accessor. -/
def TreeNode.expanded : TreeNode → Bool
  | .node _ _ e _ _ => e

/-- Node check state accessor (0 unchecked, 1 partial state, 2 checked). -/
def TreeNode.checked : TreeNode → Nat
  | .node _ _ _ c _ => c

/-- Node children accessor. -/
def TreeNode.children : TreeNode → TreeList
  | .node _ _ _ _ ch => ch

/-- Emptiness test for child lists. -/
def TreeList.isNil : TreeList → Bool
  | .nil => true
  | .cons _ _ => false

/-- Conjunction of a predicate over a child list (one level only). -/
def TreeList.allNodes (p : TreeNode → Bool) : TreeList → Bool
  | .nil => true
  | .cons t ts => p t && ts.allNodes p

/-- The set-of-child-states computation of `_recompute_from_children`:
    2 when every child is checked, 0 when every child is unchecked,
    1 otherwise.  Only used on non-empty child lists. -/
def computeState (ch : TreeList) : Nat :=
  if ch.allNodes (fun c => c.checked == 2) then 2
  else if ch.allNodes (fun c => c.checked == 0) then 0
  else 1

/-- `TreeNode._recompute_from_children` restricted to the node itself: with
    no children it is a no-op, otherwise the check state is recomputed from
    the children.  (The Python method then recurses to the parent; the
    traversal functions below apply this on the way back up the path.) -/
def recomputeLocal (t : TreeNode) : TreeNode :=
  match t with
  | .node n k e c ch => if ch.isNil then .node n k e c ch else .node n k e (computeState ch) ch

mutual
/-- `TreeNode._set_checked_recursive`: the whole subtree uniformly gets check
    state 2 when `value` is truthy and 0 otherwise. -/
def set_checked_recursive (value : Nat) : TreeNode → TreeNode
  | .node n k e _ ch => .node n k e (if value != 0 then 2 else 0) (setCheckedList value ch)
/-- List part of `set_checked_recursive`. -/
def setCheckedList (value : Nat) : TreeList → TreeList
  | .nil => .nil
  | .cons t ts => .cons (set_checked_recursive value t) (setCheckedList value ts)
end

/-- `TreeNode.toggle_check` acting on the target node itself: a host flips
    between 0 and 2; any other kind computes the single target state and sets
    the whole subtree.  Ancestor recomputation is performed by the caller
    (`toggle_check_at`). -/
def toggleHere (t : TreeNode) : TreeNode :=
  match t with
  | .node n k e c ch =>
    if k == "host" then .node n k e (if c == 2 then 0 else 2) ch
    else
      let want := if c == 2 then 0 else 2
      set_checked_recursive (if want == 2 then 1 else 0) (.node n k e c ch)

mutual
/-- `toggle_check` invoked on the node at `path` (indices into children
    lists), followed by the bottom-up ancestor recomputation the Python
    parent back-references perform.  An out-of-range path leaves the
    children unchanged (the UI can only toggle existing nodes). -/
def toggle_check_at : TreeNode → List Nat → TreeNode
  | t, [] => toggleHere t
  | .node n k e c ch, i :: p => recomputeLocal (.node n k e c (toggleChild ch i p))
/-- Replace the `i`-th child by its toggled version. -/
def toggleChild : TreeList → Nat → List Nat → TreeList
  | .nil, _, _ => .nil
  | .cons t ts, 0, p => .cons (toggle_check_at t p) ts
  | .cons t ts, i + 1, p => .cons t (toggleChild ts i p)
end

mutual
/-- Node lookup along a path of child indices. -/
def nodeAt : TreeNode → List Nat → Option TreeNode
  | t, [] => some t
  | .node _ _ _ _ ch, i :: p => nodeAtChild ch i p
/-- List part of `nodeAt`. -/
def nodeAtChild : TreeList → Nat → List Nat → Option TreeNode
  | .nil, _, _ => none
  | .cons t _, 0, p => nodeAt t p
  | .cons _ ts, i + 1, p => nodeAtChild ts i p
end

mutual
/-- `TreeNode.collect_hosts`: names of checked host nodes; any node whose
    kind is not "host" recurses into all of its children. -/
def collect_hosts : TreeNode → List String
  | .node n k _ c ch => if k == "host" then (if c == 2 then [n] else []) else collectHostsList ch
/-- List part of `collect_hosts`. -/
def collectHostsList : TreeList → List String
  | .nil => []
  | .cons t ts => collect_hosts t ++ collectHostsList ts
end

mutual
/-- Names of every host node reachable through non-host nodes, regardless of
    check state (the candidates `collect_hosts` can ever report). -/
def hostNamesAll : TreeNode → List String
  | .node n k _ _ ch => if k == "host" then [n] else hostNamesAllList ch
/-- List part of `hostNamesAll`. -/
def hostNamesAllList : TreeList → List String
  | .nil => []
  | .cons t ts => hostNamesAll t ++ hostNamesAllList ts
end

mutual
/-- Bool-valued "every node of the subtree satisfies `p`". -/
def treeAll (p : TreeNode → Bool) : TreeNode → Bool
  | .node n k e c ch => p (.node n k e c ch) && treeAllList p ch
/-- List part of `treeAll`. -/
def treeAllList (p : TreeNode → Bool) : TreeList → Bool
  | .nil => true
  | .cons t ts => treeAll p t && treeAllList p ts
end

/-! ## Tree descriptors and loading -/

mutual
/-- A node descriptor as handed to `TreeNode.from_dict`: a dict whose
    relevant keys are "name", "kind", "expanded" and "children"; a missing
    key is `none`. -/
inductive Raw where
  | node (name kind : Option String) (expanded : Option Bool) (children : RawList)
inductive RawList where
  | nil
  | cons (hd : Raw) (tl : RawList)
end

mutual
/-- `TreeNode.from_dict`: reads `d["name"]` and `d["kind"]` (a missing key
    raises KeyError, modelled as `Except.error`), defaults `expanded` to
    false, builds the children in order and finally recomputes the node's
    state from its children.  The kind string is not validated. -/
def from_dict : Raw → Except String TreeNode
  | .node name? kind? exp? children =>
    match name? with
    | none => .error "KeyError: name"
    | some name =>
      match kind? with
      | none => .error "KeyError: kind"
      | some kind =>
        match fromDictList children with
        | .error e => .error e
        | .ok cs => .ok (recomputeLocal (.node name kind (exp?.getD false) 0 cs))
/-- List part of `from_dict`; the first failing child propagates. -/
def fromDictList : RawList → Except String TreeList
  | .nil => .ok .nil
  | .cons r rs =>
    match from_dict r with
    | .error e => .error e
    | .ok t =>
      match fromDictList rs with
      | .error e => .error e
      | .ok ts => .ok (.cons t ts)
end

mutual
/-- True when some descriptor in the tree lacks a name or a kind. -/
def hasMissingKey : Raw → Bool
  | .node name? kind? _ children => name?.isNone || kind?.isNone || hasMissingKeyList children
/-- List part of `hasMissingKey`. -/
def hasMissingKeyList : RawList → Bool
  | .nil => false
  | .cons r rs => hasMissingKey r || hasMissingKeyList rs
end

mutual
/-- `TreePane._expand_to_depth`: expand groups down to the given depth. -/
def expand_to_depth : Nat → TreeNode → TreeNode
  | d, .node n k e c ch =>
    if d == 0 || k != "group" then .node n k e c ch
    else .node n k true c (expandListToDepth (d - 1) ch)
/-- List part of `expand_to_depth`. -/
def expandListToDepth : Nat → TreeList → TreeList
  | _, .nil => .nil
  | d, .cons t ts => .cons (expand_to_depth d t) (expandListToDepth d ts)
end

/-! ## TreePane -/

/-- The tree pane state: the root (if a tree is installed), the cursor index
    into the flat view and the scroll top.  The flat view itself is always
    rebuilt from the root after each mutation in the Python code, so it is
    recomputed on demand here (`visiblePaths`). -/
structure TreePane where
  root : Option TreeNode
  index : Nat
  top : Nat

/-- A pane with no tree installed. -/
def emptyPane : TreePane := ⟨none, 0, 0⟩

/-- `TreePane.set_tree`: build the tree from the descriptor, auto-expand to
    `max 0 expand_levels`, reset cursor and scroll.  A KeyError from
    `from_dict` propagates before any pane field is assigned. -/
def set_tree (raw : Raw) (expand_levels : Int) : Except String TreePane :=
  match from_dict raw with
  | .error e => .error e
  | .ok root => .ok ⟨some (expand_to_depth (max 0 expand_levels).toNat root), 0, 0⟩

/-- The pane after calling `set_tree`: on success the new pane, on a raised
    KeyError the caller's pane object is untouched. -/
def applySetTree (p : TreePane) (raw : Raw) (expand_levels : Int) : TreePane :=
  match set_tree raw expand_levels with
  | .ok p2 => p2
  | .error _ => p

mutual
/-- Paths of the visible rows, in `iter_visible` order: the node itself,
    then (only for an expanded group) the children depth-first. -/
def visiblePaths : TreeNode → List (List Nat)
  | .node _ k e _ ch => [] :: (if k == "group" && e then visiblePathsList ch 0 else [])
/-- List part of `visiblePaths`, prefixing each child's paths with its
    index. -/
def visiblePathsList : TreeList → Nat → List (List Nat)
  | .nil, _ => []
  | .cons t ts, i => (visiblePaths t).map (fun p => i :: p) ++ visiblePathsList ts (i + 1)
end

/-- `TreePane.toggle_check_current`: toggle the node under the cursor, if
    any. -/
def toggle_check_current (p : TreePane) : TreePane :=
  match p.root with
  | none => p
  | some r =>
    match (visiblePaths r)[p.index]? with
    | none => p
    | some path => { p with root := some (toggle_check_at r path) }

/-- `sorted(set(root.collect_hosts()))` for a given root. -/
def selectedHostsOf (r : TreeNode) : List String := sortStr (dedupFirst (collect_hosts r))

/-- `TreePane.get_selected_hosts`: `sorted(set(root.collect_hosts()))`. -/
def get_selected_hosts (p : TreePane) : List String :=
  match p.root with
  | none => []
  | some r => selectedHostsOf r

mutual
/-- The `(node.name, node.top_level_group())` pairs of the checked hosts in
    the flat (visible) view, in row order.  `topSelf` is the value
    `top_level_group()` returns for this node: `none` for the root and for
    its direct children, otherwise the name of the ancestor directly below
    the root. -/
def checkedHostPairsVis : TreeNode → Option String → Bool → List (String × Option String)
  | .node n k e c ch, topSelf, isRoot =>
    (if k == "host" && c == 2 then [(n, topSelf)] else []) ++
      (if k == "group" && e then
        checkedHostPairsVisList ch (if isRoot then none else some (topSelf.getD n)) else [])
/-- List part of `checkedHostPairsVis`. -/
def checkedHostPairsVisList : TreeList → Option String → List (String × Option String)
  | .nil, _ => []
  | .cons t ts, top => checkedHostPairsVis t top false ++ checkedHostPairsVisList ts top
end

mutual
/-- Like `checkedHostPairsVis` but walking the full tree, ignoring the
    expansion state: every checked host node is collected. -/
def checkedHostPairsAll : TreeNode → Option String → Bool → List (String × Option String)
  | .node n k _e c ch, topSelf, isRoot =>
    (if k == "host" && c == 2 then [(n, topSelf)] else []) ++
      (if k == "group" then
        checkedHostPairsAllList ch (if isRoot then none else some (topSelf.getD n)) else [])
/-- List part of `checkedHostPairsAll`. -/
def checkedHostPairsAllList : TreeList → Option String → List (String × Option String)
  | .nil, _ => []
  | .cons t ts, top => checkedHostPairsAll t top false ++ checkedHostPairsAllList ts top
end

/-- Emission step of `get_selected_limit_patterns`: a host name occurring
    more than once among the collected pairs, with a truthy top-level group,
    is qualified as "group:&host"; every other pair emits the bare name. -/
def emitPatterns (pairs : List (String × Option String)) : List String :=
  pairs.map fun q =>
    if decide (1 < pairs.countP (fun q2 => q2.1 == q.1)) &&
        (match q.2 with | none => false | some s => !(s == "")) then
      (q.2.getD "") ++ ":&" ++ q.1
    else q.1

/-- `TreePane.get_selected_limit_patterns`: collect `(host, top_level_group)`
    pairs over the flat view, disambiguate duplicated names, de-duplicate
    preserving first-seen order. -/
def get_selected_limit_patterns (p : TreePane) : List String :=
  match p.root with
  | none => []
  | some r => dedupFirst (emitPatterns (checkedHostPairsVis r none true))

/-! ## Claim predicates and concrete example data -/

/-- Byte encoding of an ASCII string (identity on code points below 0x80,
    which is all the examples use). -/
def strToBytes (s : String) : List Nat := s.data.map Char.toNat

/-- Structural consistency at one node: hosts are unconstrained, childless
    nodes are unconstrained, any other node carries exactly the state
    `_recompute_from_children` would compute. -/
def goodNodeB (t : TreeNode) : Bool :=
  t.kind == "host" || t.children.isNil || (t.checked == computeState t.children)

/-- The tri-state invariant restricted to groups with at least one child:
    checked iff all children checked, unchecked iff all unchecked, the
    intermediate state 1 otherwise. -/
def groupInvB (t : TreeNode) : Bool :=
  if t.kind == "group" && !t.children.isNil then
    ((t.checked == 2) == t.children.allNodes (fun c => c.checked == 2)) &&
      ((t.checked == 0) == t.children.allNodes (fun c => c.checked == 0)) &&
      ((t.checked == 1) ==
        (!t.children.allNodes (fun c => c.checked == 2) &&
          !t.children.allNodes (fun c => c.checked == 0)))
  else true

/-- The tri-state invariant exactly as claimed for every group node: checked
    iff all children are checked and at least one child exists, unchecked
    iff all children are unchecked, the intermediate state otherwise. -/
def origGroupInvB (t : TreeNode) : Bool :=
  if t.kind == "group" then
    ((t.checked == 2) ==
        (t.children.allNodes (fun c => c.checked == 2) && !t.children.isNil)) &&
      ((t.checked == 0) == t.children.allNodes (fun c => c.checked == 0)) &&
      ((t.checked == 1) ==
        (!(t.children.allNodes (fun c => c.checked == 2) && !t.children.isNil) &&
          !t.children.allNodes (fun c => c.checked == 0)))
  else true

mutual
/-- Every node with a child is an expanded group: under this condition the
    flat view reaches the whole tree. -/
def wellExpandedB : TreeNode → Bool
  | .node _ k e _ ch => (ch.isNil || (k == "group" && e)) && wellExpandedList ch
/-- List part of `wellExpandedB`. -/
def wellExpandedList : TreeList → Bool
  | .nil => true
  | .cons t ts => wellExpandedB t && wellExpandedList ts
end

mutual
/-- Every strict ancestor along the path is a group (true of any node
    reachable in the flat view). -/
def pathOkB : TreeNode → List Nat → Bool
  | _, [] => true
  | .node _ k _ _ ch, i :: p => k == "group" && pathOkChild ch i p
/-- List part of `pathOkB`. -/
def pathOkChild : TreeList → Nat → List Nat → Bool
  | .nil, _, _ => false
  | .cons t _, 0, p => pathOkB t p
  | .cons _ ts, i + 1, p => pathOkChild ts i p
end

/-- Host descriptor `{name: n, kind: "host"}`. -/
def hostRaw (n : String) : Raw := .node (some n) (some "host") none .nil

/-- Group descriptor `{name: n, kind: "group", children: ch}`. -/
def groupRaw (n : String) (ch : RawList) : Raw := .node (some n) (some "group") none ch

/-- Descriptor of root -> groups A and B, each containing a host sw1. -/
def rawAB : Raw :=
  groupRaw "root"
    (.cons (groupRaw "A" (.cons (hostRaw "sw1") .nil))
      (.cons (groupRaw "B" (.cons (hostRaw "sw1") .nil)) .nil))

/-- The tree `from_dict rawAB` builds. -/
def treeAB : TreeNode :=
  .node "root" "group" false 0
    (.cons (.node "A" "group" false 0 (.cons (.node "sw1" "host" false 0 .nil) .nil))
      (.cons (.node "B" "group" false 0 (.cons (.node "sw1" "host" false 0 .nil) .nil)) .nil))

/-- Descriptor of root -> group A -> host sw1. -/
def rawA : Raw := groupRaw "root" (.cons (groupRaw "A" (.cons (hostRaw "sw1") .nil)) .nil)

/-- Descriptor of root -> empty group G. -/
def rawEG : Raw := groupRaw "root" (.cons (groupRaw "G" .nil) .nil)

/-- The tree `from_dict rawEG` builds. -/
def treeEG : TreeNode :=
  .node "root" "group" false 0 (.cons (.node "G" "group" false 0 .nil) .nil)

/-- The pane holding rawAB fully expanded (default expand depth 3). -/
def paneAB : TreePane := applySetTree emptyPane rawAB 3

/-- paneAB with both sw1 hosts checked (flat rows 2 and 4). -/
def paneBoth : TreePane :=
  toggle_check_current { (toggle_check_current { paneAB with index := 2 }) with index := 4 }

/-- paneAB with only the sw1 under A checked. -/
def paneOne : TreePane := toggle_check_current { paneAB with index := 2 }

/-- rawA loaded with expand depth 0 (everything collapsed), then the root
    group toggled: sw1 is checked but invisible. -/
def paneCollapsed : TreePane := toggle_check_current (applySetTree emptyPane rawA 0)

/-- The root of a pane (panes in the examples always hold one). -/
def rootOf (p : TreePane) : TreeNode :=
  match p.root with
  | some r => r
  | none => .node "" "" false 0 .nil

/-! ## Helper lemmas -/

theorem name_node (n k : String) (e : Bool) (c : Nat) (ch : TreeList) :
    (TreeNode.node n k e c ch).name = n := rfl

theorem kind_node (n k : String) (e : Bool) (c : Nat) (ch : TreeList) :
    (TreeNode.node n k e c ch).kind = k := rfl

theorem checked_node (n k : String) (e : Bool) (c : Nat) (ch : TreeList) :
    (TreeNode.node n k e c ch).checked = c := rfl

theorem children_node (n k : String) (e : Bool) (c : Nat) (ch : TreeList) :
    (TreeNode.node n k e c ch).children = ch := rfl

theorem length_takeLast (k : Nat) (l : List α) : (takeLast k l).length = min k l.length := by
  simp only [takeLast, List.length_drop]
  omega

theorem takeLast_of_le {k : Nat} {l : List α} (h : l.length ≤ k) : takeLast k l = l := by
  have hz : l.length - k = 0 := by omega
  simp [takeLast, hz]

theorem drop_append_ge (n : Nat) (a b : List α) (h : a.length ≤ n) :
    (a ++ b).drop n = b.drop (n - a.length) := by
  induction a generalizing n with
  | nil => simp
  | cons x xs ih =>
    cases n with
    | zero => simp at h
    | succ m =>
      simp only [List.cons_append, List.drop_succ_cons, List.length_cons]
      rw [ih m (by simpa using h)]
      congr 1
      omega

theorem takeLast_takeLast (m k : Nat) (l : List α) :
    takeLast m (takeLast k l) = takeLast (min m k) l := by
  simp only [takeLast, List.length_drop, List.drop_drop]
  congr 1
  omega

theorem takeLast_append_takeLast (k : Nat) (a b : List α) :
    takeLast k (takeLast k a ++ b) = takeLast k (a ++ b) := by
  simp only [takeLast, List.length_append, List.length_drop]
  by_cases h : k ≤ b.length
  · rw [drop_append_ge _ _ _ (by simp only [List.length_drop]; omega),
      drop_append_ge _ _ _ (by omega)]
    simp only [List.length_drop]
    congr 1
    omega
  · rw [List.drop_append_of_le_length (by simp only [List.length_drop]; omega),
      List.drop_append_of_le_length (by omega)]
    rw [List.drop_drop]
    congr 2
    omega

theorem takeWhile_all_append (p : α → Bool) (l1 l2 : List α) (h : ∀ x ∈ l1, p x = true) :
    (l1 ++ l2).takeWhile p = l1 ++ l2.takeWhile p := by
  induction l1 with
  | nil => simp
  | cons x xs ih =>
    have hx : p x = true := h x (by simp)
    simp only [List.cons_append, List.takeWhile_cons, hx, if_true]
    rw [ih (fun y hy => h y (by simp [hy]))]

/-! ## C3: command vector shape -/

/-- C3: `build_ansible_cmd` always returns a vector beginning
    `["ansible-playbook", "-i", inventory, playbook]`; it appends
    `["--limit", comma-joined hosts]` exactly when `hosts` is non-empty;
    a (truthy) vault password file path appends
    `["--vault-password-file", path]` and suppresses the interactive
    `--ask-vault-pass` flag even when `ask_vault` is true; with no vault
    file and `ask_vault` false nothing further is appended. -/
theorem build_ansible_cmd_shape (pb inv : String) (hosts : List String) (av : Bool)
    (vpf : Option String) (extra : List (String × String)) (env : Env) :
    (build_ansible_cmd pb inv hosts av vpf extra env).1 =
      ["ansible-playbook", "-i", inv, pb] ++
        (if hosts.isEmpty then [] else ["--limit", String.intercalate "," hosts]) ++
        (if pyTruthyOptStr vpf then ["--vault-password-file", vpf.getD ""]
          else if av then ["--ask-vault-pass"] else []) := by
  cases h1 : hosts.isEmpty <;> cases h2 : pyTruthyOptStr vpf <;> cases h3 : av <;>
    simp [build_ansible_cmd, h1, h2, h3]

/-! ## C9: environment side effect -/

/-- C9 counterexample: with a non-empty `extra_env` the call does change the
    process environment — the claim that it "leaves the process environment
    unchanged" is false.  Before the call the variable is unset, afterwards
    it is bound. -/
theorem build_ansible_cmd_env_counterexample :
    ((build_ansible_cmd "site.yml" "inv.yml" [] false none
        [("ANSIBLE_FORCE_COLOR", "1")] (fun _ => none)).2) "ANSIBLE_FORCE_COLOR" =
      some "1" ∧
    ((fun _ => none : Env) "ANSIBLE_FORCE_COLOR" = (none : Option String)) :=
  ⟨rfl, rfl⟩

/-- C9 amended: the returned command vector depends only on the arguments,
    never on the ambient environment, and the environment is left unchanged
    whenever `extra_env` is empty (the only side effect of the Python
    function is `os.environ.update(extra_env)` for truthy `extra_env`). -/
theorem build_ansible_cmd_frame (pb inv : String) (hosts : List String) (av : Bool)
    (vpf : Option String) (extra : List (String × String)) (env env2 : Env) :
    (build_ansible_cmd pb inv hosts av vpf [] env).2 = env ∧
    (build_ansible_cmd pb inv hosts av vpf extra env).1 =
      (build_ansible_cmd pb inv hosts av vpf extra env2).1 :=
  ⟨rfl, rfl⟩

/-! ## C8: total decoding -/

/-- C8 counterexample: the invalid byte 0xFF is silently dropped, not
    replaced — the decoded text is "A\n" and contains no U+FFFD replacement
    character, contradicting the claim that invalid sequences are replaced
    by a replacement character. -/
theorem append_bytes_decode_counterexample :
    pyDecodeIgnore [0xFF, 0x41, 0x0A] = "A\n" ∧
    (pyDecodeIgnore [0xFF, 0x41, 0x0A]).data.contains (Char.ofNat 0xFFFD) = false :=
  ⟨rfl, rfl⟩

/-- C8 amended: decoding is total (`errors="ignore"` never raises) and an
    invalid byte is silently dropped rather than replaced or rejected: a
    chunk beginning with the invalid start byte 0xFF, or with the stray
    continuation byte 0x80, decodes exactly as the chunk without that byte,
    and appending such a chunk buffers the remaining characters only. -/
theorem append_bytes_decode_total :
    (∀ bs : List Nat, pyDecodeIgnore (0xFF :: bs) = pyDecodeIgnore bs) ∧
    (∀ bs : List Nat, pyDecodeIgnore (0x80 :: bs) = pyDecodeIgnore bs) ∧
    (append_bytes (mkOutputPane 5000) [0xFF, 0x41, 0x0A]).lines = ["A"] :=
  ⟨fun _ => rfl, fun _ => rfl, rfl⟩

/-! ## C5: bounded buffer -/

theorem append_bytes_lines_eq (p : OutputPane) (c : List Nat) (h : 1 ≤ p.max_lines) :
    (append_bytes p c).lines = takeLast p.max_lines (p.lines ++ producedLines c) := by
  simp only [append_bytes, producedLines]
  split
  · have hz : (p.max_lines == 0) = false := by
      simp only [beq_eq_false_iff_ne, ne_eq]
      omega
    simp [pyTailSlice, hz]
  · next hle => exact (takeLast_of_le (by omega)).symm

theorem foldl_append_bytes_lines (chunks : List (List Nat)) :
    ∀ p : OutputPane, 1 ≤ p.max_lines → p.lines.length ≤ p.max_lines →
      (chunks.foldl append_bytes p).lines =
        takeLast p.max_lines (p.lines ++ (chunks.map producedLines).flatten) ∧
      (chunks.foldl append_bytes p).max_lines = p.max_lines := by
  induction chunks with
  | nil =>
    intro p h hl
    exact ⟨by simpa using (takeLast_of_le hl).symm, rfl⟩
  | cons c cs ih =>
    intro p h hl
    have hmax : (append_bytes p c).max_lines = p.max_lines := rfl
    have hlines := append_bytes_lines_eq p c h
    have hlen : (append_bytes p c).lines.length ≤ (append_bytes p c).max_lines := by
      rw [hlines, hmax, length_takeLast]
      omega
    rcases ih (append_bytes p c) (by rw [hmax]; exact h) hlen with ⟨h1, h2⟩
    refine ⟨?_, by rw [List.foldl_cons, h2, hmax]⟩
    rw [List.foldl_cons, h1, hmax, hlines, List.map_cons, List.flatten_cons,
      takeLast_append_takeLast, List.append_assoc]

/-- C5 amended: for a pane with `max_lines ≥ 1`, after any sequence of
    `append_bytes` calls the buffer equals the last `max_lines` of all lines
    ever produced (FIFO eviction from the front, survivor order preserved),
    so it never holds more than `max_lines` lines, and holds exactly
    `max_lines` lines once more than `max_lines` lines have been appended.
    (For `max_lines = 0` the Python slice `lines[-0:]` keeps everything; see
    the counterexample.) -/
theorem outputpane_buffer_bound (maxL : Nat) (chunks : List (List Nat)) (h : 1 ≤ maxL) :
    (chunks.foldl append_bytes (mkOutputPane maxL)).lines =
      takeLast maxL ((chunks.map producedLines).flatten) ∧
    (chunks.foldl append_bytes (mkOutputPane maxL)).lines.length ≤ maxL ∧
    (maxL < ((chunks.map producedLines).flatten).length →
      (chunks.foldl append_bytes (mkOutputPane maxL)).lines.length = maxL) := by
  have hm := foldl_append_bytes_lines chunks (mkOutputPane maxL) h (by simp [mkOutputPane])
  have h1 : (chunks.foldl append_bytes (mkOutputPane maxL)).lines =
      takeLast maxL ((chunks.map producedLines).flatten) := by
    simpa [mkOutputPane] using hm.1
  refine ⟨h1, ?_, ?_⟩
  · rw [h1, length_takeLast]
    omega
  · intro hgt
    rw [h1, length_takeLast]
    omega

/-- C5 witness: bound 2, three one-line chunks "a\n", "b\n", "c\n": the
    buffer ends as the last two lines ["b", "c"]. -/
theorem outputpane_buffer_bound_witness :
    (([[97, 10], [98, 10], [99, 10]] : List (List Nat)).foldl append_bytes
        (mkOutputPane 2)).lines = ["b", "c"] ∧
    (([[97, 10], [98, 10], [99, 10]] : List (List Nat)).foldl append_bytes
        (mkOutputPane 2)).lines.length = 2 := by
  have h := outputpane_buffer_bound 2 [[97, 10], [98, 10], [99, 10]] (by decide)
  exact ⟨h.1.trans (by decide), h.2.2 (by decide)⟩

/-- C5 counterexample: a pane constructed with maximum line count 0 exceeds
    its bound after a single appended line, because the truncation slice
    `self.lines[-0:]` is the whole list in Python — the claimed bound "at
    most maxLines lines after any call" fails for maxLines = 0. -/
theorem outputpane_zero_bound_counterexample :
    (mkOutputPane 0).max_lines = 0 ∧
    (append_bytes (mkOutputPane 0) [97, 10]).lines.length = 1 :=
  ⟨rfl, rfl⟩

/-! ## C6: carriage-return collapsing -/

/-- C6 amended: carriage-return collapsing acts on the decoded chunk as a
    whole — whenever the ANSI-stripped text contains a CR, exactly the text
    after the last CR in the whole chunk survives (text before it, including
    complete earlier lines, is discarded); in particular the progress
    example buffers exactly one line "progress 100%". -/
theorem cr_collapse_spec :
    (∀ s a b : List Char, ansiStrip s = a ++ '\r' :: b → '\r' ∉ b →
      clean_text ⟨s⟩ = ⟨b⟩) ∧
    (append_bytes (mkOutputPane 5000)
        (strToBytes "progress 10%\rprogress 50%\rprogress 100%\n")).lines =
      ["progress 100%"] := by
  constructor
  · intro s a b hsplit hb
    simp only [clean_text]
    rw [hsplit, if_pos (by simp)]
    have hform : (a ++ '\r' :: b).reverse = b.reverse ++ '\r' :: a.reverse := by
      simp
    rw [hform, takeWhile_all_append (fun c => c != '\r') b.reverse ('\r' :: a.reverse)
      (fun x hx => by
        have hxb : x ∈ b := by simpa using hx
        have hne : x ≠ '\r' := fun he => hb (he ▸ hxb)
        simp [hne])]
    simp [List.takeWhile_cons]
  · rfl

/-- C6 witness: a chunk whose stripped text decomposes around its last CR. -/
theorem cr_collapse_spec_witness :
    clean_text ⟨['x', '\r', 'y']⟩ = ⟨['y']⟩ :=
  cr_collapse_spec.1 ['x', '\r', 'y'] ['x'] ['y'] (by decide) (by decide)

/-- C6 counterexample: the chunk "keep\nname\rfinal\n" buffers only
    ["final"] — the complete earlier line "keep" is discarded because the
    code keeps only the text after the last CR of the whole chunk, whereas
    collapsing "each logical segment" separately would buffer
    ["keep", "final"]. -/
theorem cr_collapse_counterexample :
    (append_bytes (mkOutputPane 5000) (strToBytes "keep\nname\rfinal\n")).lines =
      ["final"] ∧
    (["final"] ≠ (["keep", "final"] : List String)) :=
  ⟨rfl, by decide⟩

/-! ## C10: no partial-line carry-over -/

/-- C10: `append_bytes` keeps no partial-line state between calls: a chunk
    whose cleaned decoded text is a single unterminated line is buffered
    immediately as a complete line, so a logical line split across two
    chunks is stored as two separate buffered lines. -/
theorem append_bytes_no_carry (p : OutputPane) (c1 c2 : List Nat) (s1 s2 : String)
    (h1 : pyDecodeIgnore c1 = s1) (h2 : pyDecodeIgnore c2 = s2)
    (g1 : clean_text s1 = s1) (g2 : clean_text s2 = s2)
    (k1 : pySplitlines s1 = [s1]) (k2 : pySplitlines s2 = [s2])
    (hlen : p.lines.length + 2 ≤ p.max_lines) :
    (append_bytes (append_bytes p c1) c2).lines = p.lines ++ [s1, s2] := by
  have e1 : (append_bytes p c1).lines = p.lines ++ [s1] := by
    simp only [append_bytes, h1, g1, k1]
    rw [if_neg (by simp only [List.length_append, List.length_cons, List.length_nil]; omega)]
  have emax : (append_bytes p c1).max_lines = p.max_lines := rfl
  generalize hq : append_bytes p c1 = q at e1 emax
  simp only [append_bytes, h2, g2, k2, e1, emax]
  rw [if_neg (by simp only [List.length_append, List.length_cons, List.length_nil]; omega)]
  simp

/-- C10 witness: chunks "abc" then "def" (no newlines) produce the two
    separate buffered lines "abc" and "def", not "abcdef". -/
theorem append_bytes_no_carry_witness :
    (append_bytes (append_bytes (mkOutputPane 5000) [97, 98, 99])
        [100, 101, 102]).lines = ["abc", "def"] := by
  have h := append_bytes_no_carry (mkOutputPane 5000) [97, 98, 99] [100, 101, 102]
    "abc" "def" rfl rfl rfl rfl rfl rfl (by decide)
  simpa [mkOutputPane] using h

/-! ## C7: tree loading errors -/

mutual
theorem from_dict_isOk : ∀ r : Raw, (from_dict r).isOk = !hasMissingKey r
  | .node name? kind? exp? ch => by
    cases name? with
    | none => simp [from_dict, hasMissingKey, Except.isOk, Except.toBool]
    | some n =>
      cases kind? with
      | none => simp [from_dict, hasMissingKey, Except.isOk, Except.toBool]
      | some k =>
        have hl := fromDictList_isOk ch
        cases hfd : fromDictList ch with
        | error e =>
          rw [hfd] at hl
          simp only [Except.isOk, Except.toBool] at hl
          simp [from_dict, hasMissingKey, hfd, Except.isOk, Except.toBool, ← hl]
        | ok ts =>
          rw [hfd] at hl
          simp only [Except.isOk, Except.toBool] at hl
          simp [from_dict, hasMissingKey, hfd, Except.isOk, Except.toBool, ← hl]
theorem fromDictList_isOk : ∀ rs : RawList, (fromDictList rs).isOk = !hasMissingKeyList rs
  | .nil => by simp [fromDictList, hasMissingKeyList, Except.isOk, Except.toBool]
  | .cons r rs => by
    have h1 := from_dict_isOk r
    have h2 := fromDictList_isOk rs
    cases hfd : from_dict r with
    | error e =>
      rw [hfd] at h1
      simp only [Except.isOk, Except.toBool] at h1
      simp [fromDictList, hasMissingKeyList, hfd, Except.isOk, Except.toBool, ← h1]
    | ok t =>
      rw [hfd] at h1
      simp only [Except.isOk, Except.toBool] at h1
      cases hfl : fromDictList rs with
      | error e =>
        rw [hfl] at h2
        simp only [Except.isOk, Except.toBool] at h2
        simp [fromDictList, hasMissingKeyList, hfd, hfl, Except.isOk, Except.toBool, ← h1, ← h2]
      | ok ts =>
        rw [hfl] at h2
        simp only [Except.isOk, Except.toBool] at h2
        simp [fromDictList, hasMissingKeyList, hfd, hfl, Except.isOk, Except.toBool, ← h1, ← h2]
end

/-- C7 amended: `from_dict` fails (with a KeyError, there is no dedicated
    MalformedTreeError class) exactly for descriptors in which some node
    lacks a name or a kind — the error propagates from nested nodes to the
    caller — and on such a failure `set_tree` raises before assigning, so
    the pane's previous root, flat view, cursor and scroll are unchanged.
    A node with an unknown kind string is not rejected (see the
    counterexample). -/
theorem load_tree_error_contract :
    (∀ r : Raw, (from_dict r).isOk = !hasMissingKey r) ∧
    (∀ (p : TreePane) (r : Raw) (levels : Int),
      hasMissingKey r = true → applySetTree p r levels = p) := by
  refine ⟨from_dict_isOk, ?_⟩
  intro p r levels hmiss
  have h := from_dict_isOk r
  rw [hmiss] at h
  simp only [Bool.not_true] at h
  cases hfd : from_dict r with
  | error e => simp [applySetTree, set_tree, hfd]
  | ok t =>
    rw [hfd] at h
    simp [Except.isOk, Except.toBool] at h

/-- C7 witness: a descriptor missing its kind key makes `from_dict` fail and
    leaves the pane untouched. -/
theorem load_tree_error_contract_witness :
    hasMissingKey (Raw.node (some "x") none none .nil) = true ∧
    applySetTree emptyPane (Raw.node (some "x") none none .nil) 3 = emptyPane :=
  ⟨rfl, load_tree_error_contract.2 emptyPane (Raw.node (some "x") none none .nil) 3 rfl⟩

/-- C7 counterexample: a descriptor whose kind is the invalid string
    "banana" is accepted by `from_dict` and installed by `set_tree` without
    any error, contradicting the claim that every descriptor with an
    invalid kind fails with MalformedTreeError. -/
theorem load_tree_invalid_kind_counterexample :
    (from_dict (Raw.node (some "x") (some "banana") none .nil)).isOk = true ∧
    (set_tree (Raw.node (some "x") (some "banana") none .nil) 3).isOk = true :=
  ⟨rfl, rfl⟩

/-! ## C1: tri-state invariant -/

mutual
theorem treeAll_imp (p q : TreeNode → Bool) (hpq : ∀ n, p n = true → q n = true) :
    ∀ t, treeAll p t = true → treeAll q t = true
  | .node n k e c ch, ht => by
    simp only [treeAll, Bool.and_eq_true] at ht ⊢
    exact ⟨hpq _ ht.1, treeAllList_imp p q hpq ch ht.2⟩
theorem treeAllList_imp (p q : TreeNode → Bool) (hpq : ∀ n, p n = true → q n = true) :
    ∀ ts, treeAllList p ts = true → treeAllList q ts = true
  | .nil, _ => rfl
  | .cons t ts, ht => by
    simp only [treeAllList, Bool.and_eq_true] at ht ⊢
    exact ⟨treeAll_imp p q hpq t ht.1, treeAllList_imp p q hpq ts ht.2⟩
end

theorem treeAll_self (p : TreeNode → Bool) (t : TreeNode) (h : treeAll p t = true) :
    p t = true := by
  cases t with
  | node n k e c ch =>
    simp only [treeAll, Bool.and_eq_true] at h
    exact h.1

theorem treeAllList_allNodes (p : TreeNode → Bool) :
    ∀ ts : TreeList, treeAllList p ts = true → ts.allNodes p = true
  | .nil, _ => rfl
  | .cons t ts, h => by
    simp only [treeAllList, Bool.and_eq_true] at h
    simp only [TreeList.allNodes, Bool.and_eq_true]
    exact ⟨treeAll_self p t h.1, treeAllList_allNodes p ts h.2⟩

theorem goodNode_recomputeLocal (n k : String) (e : Bool) (c : Nat) (ch : TreeList)
    (hch : treeAllList goodNodeB ch = true) :
    treeAll goodNodeB (recomputeLocal (.node n k e c ch)) = true := by
  cases ch with
  | nil => simp [recomputeLocal, TreeList.isNil, treeAll, treeAllList, goodNodeB,
      kind_node, children_node, checked_node]
  | cons hd tl =>
    simp only [recomputeLocal, TreeList.isNil, if_false, Bool.false_eq_true]
    simp only [treeAll, Bool.and_eq_true]
    refine ⟨?_, hch⟩
    simp [goodNodeB, kind_node, children_node, checked_node]

mutual
theorem from_dict_good : ∀ (r : Raw) (t : TreeNode), from_dict r = .ok t →
    treeAll goodNodeB t = true
  | .node name? kind? exp? ch, t, h => by
    cases name? with
    | none => simp [from_dict] at h
    | some n =>
      cases kind? with
      | none => simp [from_dict] at h
      | some k =>
        cases hfd : fromDictList ch with
        | error e => rw [from_dict, hfd] at h; exact absurd h (by simp)
        | ok cs =>
          rw [from_dict, hfd] at h
          simp only [Except.ok.injEq] at h
          subst h
          exact goodNode_recomputeLocal n k _ 0 cs (fromDictList_good ch cs hfd)
theorem fromDictList_good : ∀ (rs : RawList) (ts : TreeList), fromDictList rs = .ok ts →
    treeAllList goodNodeB ts = true
  | .nil, ts, h => by
    simp only [fromDictList, Except.ok.injEq] at h
    subst h
    rfl
  | .cons r rs, ts, h => by
    cases hfd : from_dict r with
    | error e => rw [fromDictList, hfd] at h; exact absurd h (by simp)
    | ok t =>
      cases hfl : fromDictList rs with
      | error e => rw [fromDictList, hfd, hfl] at h; exact absurd h (by simp)
      | ok ts2 =>
        rw [fromDictList, hfd, hfl] at h
        simp only [Except.ok.injEq] at h
        subst h
        simp only [treeAllList, Bool.and_eq_true]
        exact ⟨from_dict_good r t hfd, fromDictList_good rs ts2 hfl⟩
end

mutual
theorem set_checked_uniform (v : Nat) : ∀ t : TreeNode,
    treeAll (fun x => x.checked == (if v != 0 then 2 else 0)) (set_checked_recursive v t) = true
  | .node n k e c ch => by
    simp only [set_checked_recursive, treeAll, Bool.and_eq_true]
    exact ⟨by simp [checked_node], setCheckedList_uniform v ch⟩
theorem setCheckedList_uniform (v : Nat) : ∀ ts : TreeList,
    treeAllList (fun x => x.checked == (if v != 0 then 2 else 0)) (setCheckedList v ts) = true
  | .nil => rfl
  | .cons t ts => by
    simp only [setCheckedList, treeAllList, Bool.and_eq_true]
    exact ⟨set_checked_uniform v t, setCheckedList_uniform v ts⟩
end

mutual
theorem uniform_good (w : Nat) (hw : w = 0 ∨ w = 2) : ∀ t : TreeNode,
    treeAll (fun x => x.checked == w) t = true → treeAll goodNodeB t = true
  | .node n k e c ch, h => by
    simp only [treeAll, Bool.and_eq_true] at h ⊢
    refine ⟨?_, uniformList_good w hw ch h.2⟩
    have hc : c = w := by
      have := h.1
      simpa [checked_node] using this
    cases ch with
    | nil => simp [goodNodeB, children_node, TreeList.isNil]
    | cons hd tl =>
      have hall : (TreeList.cons hd tl).allNodes (fun x => x.checked == w) = true :=
        treeAllList_allNodes _ _ h.2
      have h3 : (c == computeState (TreeList.cons hd tl)) = true := by
        subst hc
        rcases hw with hw | hw <;> subst hw
        · have hhd : hd.checked = 0 := by
            simp only [TreeList.allNodes, Bool.and_eq_true] at hall
            simpa using hall.1
          have hz : ((TreeList.cons hd tl).allNodes fun c => c.checked == 2) = false := by
            simp [TreeList.allNodes, hhd]
          simp [computeState, hz, hall]
        · simp [computeState, hall]
      simp [goodNodeB, kind_node, children_node, checked_node, h3]
theorem uniformList_good (w : Nat) (hw : w = 0 ∨ w = 2) : ∀ ts : TreeList,
    treeAllList (fun x => x.checked == w) ts = true → treeAllList goodNodeB ts = true
  | .nil, _ => rfl
  | .cons t ts, h => by
    simp only [treeAllList, Bool.and_eq_true] at h ⊢
    exact ⟨uniform_good w hw t h.1, uniformList_good w hw ts h.2⟩
end

theorem toggleHere_good (t : TreeNode) (h : treeAll goodNodeB t = true) :
    treeAll goodNodeB (toggleHere t) = true := by
  cases t with
  | node n k e c ch =>
    simp only [toggleHere]
    cases hk : (k == "host") with
    | true =>
      simp only [if_true]
      simp only [treeAll, Bool.and_eq_true] at h ⊢
      refine ⟨?_, h.2⟩
      simp [goodNodeB, kind_node, hk]
    | false =>
      simp only [Bool.false_eq_true, if_false]
      have hu := set_checked_uniform (if (if c == 2 then 0 else 2) == 2 then 1 else 0)
        (.node n k e c ch)
      apply uniform_good ((if (if (if c == 2 then 0 else 2) == 2 then 1 else 0) != 0
        then 2 else 0)) _ _ hu
      cases hc : (c == 2) <;> simp [hc]

mutual
theorem toggle_good : ∀ (t : TreeNode) (path : List Nat),
    treeAll goodNodeB t = true → treeAll goodNodeB (toggle_check_at t path) = true
  | t, [], h => by
    rw [toggle_check_at]
    exact toggleHere_good t h
  | .node n k e c ch, i :: p, h => by
    rw [toggle_check_at]
    have hch : treeAllList goodNodeB ch = true := by
      simp only [treeAll, Bool.and_eq_true] at h
      exact h.2
    exact goodNode_recomputeLocal n k e c (toggleChild ch i p) (toggleChild_good ch i p hch)
theorem toggleChild_good : ∀ (ts : TreeList) (i : Nat) (p : List Nat),
    treeAllList goodNodeB ts = true → treeAllList goodNodeB (toggleChild ts i p) = true
  | .nil, _, _, h => h
  | .cons t ts, 0, p, h => by
    rw [toggleChild]
    simp only [treeAllList, Bool.and_eq_true] at h ⊢
    exact ⟨toggle_good t p h.1, h.2⟩
  | .cons t ts, i + 1, p, h => by
    rw [toggleChild]
    simp only [treeAllList, Bool.and_eq_true] at h ⊢
    exact ⟨h.1, toggleChild_good ts i p h.2⟩
end

theorem foldl_toggle_good (paths : List (List Nat)) :
    ∀ t : TreeNode, treeAll goodNodeB t = true →
      treeAll goodNodeB (paths.foldl toggle_check_at t) = true := by
  induction paths with
  | nil => intro t h; exact h
  | cons p ps ih =>
    intro t h
    rw [List.foldl_cons]
    exact ih _ (toggle_good t p h)

theorem goodNode_groupInv (x : TreeNode) (h : goodNodeB x = true) : groupInvB x = true := by
  cases x with
  | node n k e c ch =>
    simp only [groupInvB, kind_node, children_node, checked_node]
    cases hk : (k == "group") with
    | false => simp [hk]
    | true =>
      cases ch with
      | nil => simp [TreeList.isNil]
      | cons hd tl =>
        have hkh : (k == "host") = false := by
          have hkk : k = "group" := by simpa using hk
          simp [hkk]
        simp only [goodNodeB, kind_node, children_node, checked_node, hkh,
          TreeList.isNil, Bool.false_or, Bool.or_eq_true, Bool.false_eq_true,
          false_or] at h
        have hc : c = computeState (TreeList.cons hd tl) := by simpa using h
        subst hc
        rw [if_pos (by simp [hk, TreeList.isNil])]
        cases h2 : ((TreeList.cons hd tl).allNodes fun c => c.checked == 2) with
        | true =>
          cases h0 : ((TreeList.cons hd tl).allNodes fun c => c.checked == 0) with
          | true =>
            exfalso
            simp only [TreeList.allNodes, Bool.and_eq_true] at h2 h0
            have e2 : hd.checked = 2 := by simpa using h2.1
            have e0 : hd.checked = 0 := by simpa using h0.1
            omega
          | false => simp [computeState, h2, h0]
        | false =>
          cases h0 : ((TreeList.cons hd tl).allNodes fun c => c.checked == 0) with
          | true => simp [computeState, h2, h0]
          | false => simp [computeState, h2, h0]

/-- C1 amended: for every tree built by `from_dict` and any sequence of
    `toggle_check` calls (on hosts or groups, identified by their paths),
    every group node **with at least one child** satisfies the tri-state
    rule: checked iff all children are checked, unchecked iff all children
    are unchecked, and the intermediate state 1 otherwise.  A childless
    group is exempt: toggling it sets its own state directly (see the
    counterexample). -/
theorem tree_tristate_invariant (r : Raw) (t : TreeNode) (paths : List (List Nat))
    (h : from_dict r = .ok t) :
    treeAll groupInvB (paths.foldl toggle_check_at t) = true :=
  treeAll_imp goodNodeB groupInvB goodNode_groupInv _
    (foldl_toggle_good paths t (from_dict_good r t h))

/-- C1 witness: the two-site tree, toggling the host at path [0,0] and then
    the group at path [1]. -/
theorem tree_tristate_invariant_witness :
    treeAll groupInvB (([[0, 0], [1]] : List (List Nat)).foldl toggle_check_at treeAB) = true :=
  tree_tristate_invariant rawAB treeAB [[0, 0], [1]] rfl

/-- C1 counterexample: in the tree root -> empty group G (buildable by
    `from_dict`), toggling G sets G to checked although G has no children,
    so the claimed "checked iff all children checked and at least one child
    exists" biconditional is false for the group G. -/
theorem tree_tristate_counterexample :
    from_dict rawEG = .ok treeEG ∧
    treeAll origGroupInvB (toggle_check_at treeEG [0]) = false :=
  ⟨rfl, rfl⟩

/-! ## C4: group toggle completeness -/

theorem recomputeLocal_node (n k : String) (e : Bool) (c : Nat) (ch : TreeList) :
    recomputeLocal (.node n k e c ch) =
      .node n k e (if ch.isNil then c else computeState ch) ch := by
  rw [recomputeLocal]
  split <;> simp_all

mutual
theorem nodeAt_toggle : ∀ (t : TreeNode) (p : List Nat) (g : TreeNode),
    nodeAt t p = some g → nodeAt (toggle_check_at t p) p = some (toggleHere g)
  | t, [], g, hg => by
    rw [nodeAt] at hg
    cases hg
    rw [toggle_check_at, nodeAt]
  | .node n k e c ch, i :: p, g, hg => by
    rw [nodeAt] at hg
    rw [toggle_check_at, recomputeLocal_node, nodeAt]
    exact nodeAtChild_toggle ch i p g hg
theorem nodeAtChild_toggle : ∀ (ts : TreeList) (i : Nat) (p : List Nat) (g : TreeNode),
    nodeAtChild ts i p = some g →
      nodeAtChild (toggleChild ts i p) i p = some (toggleHere g)
  | .nil, _, _, _, hg => by rw [nodeAtChild] at hg; cases hg
  | .cons t ts, 0, p, g, hg => by
    rw [nodeAtChild] at hg
    rw [toggleChild, nodeAtChild]
    exact nodeAt_toggle t p g hg
  | .cons t ts, i + 1, p, g, hg => by
    rw [nodeAtChild] at hg
    rw [toggleChild, nodeAtChild]
    exact nodeAtChild_toggle ts i p g hg
end

theorem pathOkB_nil (t : TreeNode) : pathOkB t [] = true := by
  cases t with
  | node n k e c ch => rfl

mutual
theorem pathOk_toggle : ∀ (t : TreeNode) (p : List Nat),
    pathOkB t p = true → pathOkB (toggle_check_at t p) p = true
  | t, [], _ => pathOkB_nil (toggle_check_at t [])
  | .node n k e c ch, i :: p, hok => by
    rw [pathOkB, Bool.and_eq_true] at hok
    rw [toggle_check_at, recomputeLocal_node, pathOkB, Bool.and_eq_true]
    exact ⟨hok.1, pathOkChild_toggle ch i p hok.2⟩
theorem pathOkChild_toggle : ∀ (ts : TreeList) (i : Nat) (p : List Nat),
    pathOkChild ts i p = true → pathOkChild (toggleChild ts i p) i p = true
  | .nil, _, _, hok => hok
  | .cons t ts, 0, p, hok => by
    rw [pathOkChild] at hok
    rw [toggleChild, pathOkChild]
    exact pathOk_toggle t p hok
  | .cons t ts, i + 1, p, hok => by
    rw [pathOkChild] at hok
    rw [toggleChild, pathOkChild]
    exact pathOkChild_toggle ts i p hok
end

mutual
theorem hostNamesAll_setchecked (v : Nat) : ∀ t : TreeNode,
    hostNamesAll (set_checked_recursive v t) = hostNamesAll t
  | .node n k e c ch => by
    rw [set_checked_recursive, hostNamesAll, hostNamesAll]
    rw [hostNamesAllList_setchecked v ch]
theorem hostNamesAllList_setchecked (v : Nat) : ∀ ts : TreeList,
    hostNamesAllList (setCheckedList v ts) = hostNamesAllList ts
  | .nil => rfl
  | .cons t ts => by
    rw [setCheckedList, hostNamesAllList, hostNamesAllList,
      hostNamesAll_setchecked v t, hostNamesAllList_setchecked v ts]
end

mutual
theorem collect_uniform2 : ∀ t : TreeNode,
    treeAll (fun x => x.checked == 2) t = true → collect_hosts t = hostNamesAll t
  | .node n k e c ch, h => by
    simp only [treeAll, Bool.and_eq_true] at h
    have hc : c = 2 := by simpa [checked_node] using h.1
    rw [collect_hosts, hostNamesAll]
    cases hk : (k == "host") with
    | true => simp [hc]
    | false => simp [collectList_uniform2 ch h.2]
theorem collectList_uniform2 : ∀ ts : TreeList,
    treeAllList (fun x => x.checked == 2) ts = true →
      collectHostsList ts = hostNamesAllList ts
  | .nil, _ => rfl
  | .cons t ts, h => by
    simp only [treeAllList, Bool.and_eq_true] at h
    rw [collectHostsList, hostNamesAllList, collect_uniform2 t h.1,
      collectList_uniform2 ts h.2]
end

mutual
theorem collect_uniform0 : ∀ t : TreeNode,
    treeAll (fun x => x.checked == 0) t = true → collect_hosts t = []
  | .node n k e c ch, h => by
    simp only [treeAll, Bool.and_eq_true] at h
    have hc : c = 0 := by simpa [checked_node] using h.1
    rw [collect_hosts]
    cases hk : (k == "host") with
    | true => simp [hc]
    | false => simp [collectList_uniform0 ch h.2]
theorem collectList_uniform0 : ∀ ts : TreeList,
    treeAllList (fun x => x.checked == 0) ts = true → collectHostsList ts = []
  | .nil, _ => rfl
  | .cons t ts, h => by
    simp only [treeAllList, Bool.and_eq_true] at h
    rw [collectHostsList, collect_uniform0 t h.1, collectList_uniform0 ts h.2]
    rfl
end

mutual
theorem collect_hosts_at : ∀ (t : TreeNode) (p : List Nat) (s : TreeNode) (x : String),
    pathOkB t p = true → nodeAt t p = some s → x ∈ collect_hosts s → x ∈ collect_hosts t
  | t, [], s, x, _, hs, hx => by
    rw [nodeAt] at hs
    cases hs
    exact hx
  | .node n k e c ch, i :: p, s, x, hok, hs, hx => by
    rw [pathOkB, Bool.and_eq_true] at hok
    rw [nodeAt] at hs
    have hkh : (k == "host") = false := by
      have hkk : k = "group" := by simpa using hok.1
      simp [hkk]
    rw [collect_hosts]
    simp only [hkh, Bool.false_eq_true, if_false]
    exact collectList_hosts_at ch i p s x hok.2 hs hx
theorem collectList_hosts_at : ∀ (ts : TreeList) (i : Nat) (p : List Nat) (s : TreeNode)
    (x : String), pathOkChild ts i p = true → nodeAtChild ts i p = some s →
      x ∈ collect_hosts s → x ∈ collectHostsList ts
  | .nil, _, _, _, _, hok, _, _ => by rw [pathOkChild] at hok; cases hok
  | .cons t ts, 0, p, s, x, hok, hs, hx => by
    rw [pathOkChild] at hok
    rw [nodeAtChild] at hs
    rw [collectHostsList]
    exact List.mem_append_left _ (collect_hosts_at t p s x hok hs hx)
  | .cons t ts, i + 1, p, s, x, hok, hs, hx => by
    rw [pathOkChild] at hok
    rw [nodeAtChild] at hs
    rw [collectHostsList]
    exact List.mem_append_right _ (collectList_hosts_at ts i p s x hok hs hx)
end

theorem mem_dedupFirstAux :
    ∀ (l seen : List String) (x : String), x ∈ dedupFirstAux seen l ↔ (x ∈ l ∧ ¬ x ∈ seen)
  | [], seen, x => by simp [dedupFirstAux]
  | y :: ys, seen, x => by
    rw [dedupFirstAux]
    split
    · next hy =>
      rw [mem_dedupFirstAux ys seen x]
      have hys : y ∈ seen := by simpa using hy
      constructor
      · rintro ⟨h1, h2⟩
        exact ⟨List.mem_cons_of_mem y h1, h2⟩
      · rintro ⟨h1, h2⟩
        rcases List.mem_cons.1 h1 with h1 | h1
        · subst h1; exact absurd hys h2
        · exact ⟨h1, h2⟩
    · next hy =>
      have hys : ¬ y ∈ seen := by simpa using hy
      rw [List.mem_cons, mem_dedupFirstAux ys (y :: seen) x]
      constructor
      · rintro (h1 | ⟨h2, h3⟩)
        · rw [h1]; exact ⟨List.mem_cons_self y ys, hys⟩
        · exact ⟨List.mem_cons_of_mem y h2, fun hc => h3 (List.mem_cons_of_mem y hc)⟩
      · rintro ⟨h1, h2⟩
        by_cases hxy : x = y
        · exact Or.inl hxy
        · rcases List.mem_cons.1 h1 with h1 | h1
          · exact absurd h1 hxy
          · refine Or.inr ⟨h1, fun hc => ?_⟩
            rcases List.mem_cons.1 hc with hc | hc
            · exact hxy hc
            · exact h2 hc

theorem mem_dedupFirst (l : List String) (x : String) : x ∈ dedupFirst l ↔ x ∈ l := by
  rw [dedupFirst, mem_dedupFirstAux]
  simp

theorem mem_insertStr (y x : String) : ∀ l : List String,
    (x ∈ insertStr y l ↔ x = y ∨ x ∈ l)
  | [] => by simp [insertStr]
  | z :: zs => by
    rw [insertStr]
    split
    · simp [List.mem_cons]
    · rw [List.mem_cons, mem_insertStr y x zs, List.mem_cons]
      tauto

theorem mem_sortStr (x : String) : ∀ l : List String, (x ∈ sortStr l ↔ x ∈ l)
  | [] => Iff.rfl
  | y :: ys => by
    rw [sortStr, mem_insertStr, mem_sortStr x ys, List.mem_cons]

theorem mem_selectedHostsOf (r : TreeNode) (x : String) :
    x ∈ selectedHostsOf r ↔ x ∈ collect_hosts r := by
  rw [selectedHostsOf, mem_sortStr, mem_dedupFirst]

theorem toggleHere_group (g : TreeNode) (hkind : g.kind = "group") :
    toggleHere g =
      (if g.checked == 2 then set_checked_recursive 0 g else set_checked_recursive 1 g) := by
  cases g with
  | node n k e c ch =>
    have hk : k = "group" := by simpa [kind_node] using hkind
    subst hk
    have hgh : (("group" : String) == "host") = false := rfl
    rcases Bool.eq_false_or_eq_true (c == 2) with hc | hc <;>
      simp [toggleHere, checked_node, hgh, hc]

/-- C4 amended: toggling a group g (reachable through group ancestors, as
    every flat-view node is) whose state is Partial or Unchecked sets its
    entire subtree — every descendant host and group — to Checked, so
    collectSelectedHosts() contains every host name under g; toggling a
    fully Checked group sets its entire subtree to Unchecked, so the subtree
    contributes no hosts to the selection.  A host name under g can remain
    in collectSelectedHosts() after the uncheck if an identically named
    checked host survives elsewhere (see the counterexample). -/
theorem group_toggle_completeness (t : TreeNode) (p : List Nat) (g : TreeNode)
    (hok : pathOkB t p = true) (hg : nodeAt t p = some g) (hkind : g.kind = "group") :
    (g.checked ≠ 2 →
      nodeAt (toggle_check_at t p) p = some (set_checked_recursive 1 g) ∧
      ∀ x ∈ hostNamesAll g, x ∈ selectedHostsOf (toggle_check_at t p)) ∧
    (g.checked = 2 →
      nodeAt (toggle_check_at t p) p = some (set_checked_recursive 0 g) ∧
      collect_hosts (set_checked_recursive 0 g) = []) := by
  have hng := nodeAt_toggle t p g hg
  have hpo := pathOk_toggle t p hok
  constructor
  · intro hne
    have hc2 : (g.checked == 2) = false := by simp [hne]
    have hth : toggleHere g = set_checked_recursive 1 g := by
      rw [toggleHere_group g hkind, hc2]
      simp
    rw [hth] at hng
    refine ⟨hng, fun x hx => ?_⟩
    have huni := set_checked_uniform 1 g
    have hcoll : collect_hosts (set_checked_recursive 1 g) =
        hostNamesAll (set_checked_recursive 1 g) := by
      apply collect_uniform2
      simpa using huni
    have hx2 : x ∈ collect_hosts (set_checked_recursive 1 g) := by
      rw [hcoll, hostNamesAll_setchecked]
      exact hx
    rw [mem_selectedHostsOf]
    exact collect_hosts_at _ p _ x hpo hng hx2
  · intro heq
    have hc2 : (g.checked == 2) = true := by simp [heq]
    have hth : toggleHere g = set_checked_recursive 0 g := by
      rw [toggleHere_group g hkind, hc2]
      simp
    rw [hth] at hng
    refine ⟨hng, ?_⟩
    apply collect_uniform0
    simpa using set_checked_uniform 0 g

/-- C4 witness: in the two-site tree, group A (Unchecked) at path [0] is
    toggled; the host name "sw1" under it enters the selection. -/
theorem group_toggle_completeness_witness :
    "sw1" ∈ selectedHostsOf (toggle_check_at treeAB [0]) := by
  have h := group_toggle_completeness treeAB [0]
    (.node "A" "group" false 0 (.cons (.node "sw1" "host" false 0 .nil) .nil))
    rfl rfl rfl
  exact (h.1 (by decide)).2 "sw1" (by decide)

/-- C4 counterexample: both top-level groups contain a host named "sw1" and
    everything is checked; toggling the fully Checked group A unchecks every
    node under A, yet collectSelectedHosts() still contains "sw1" (from the
    identically named host under B) — the claimed removal of every host
    under g from collectSelectedHosts() fails. -/
theorem group_toggle_counterexample :
    (nodeAt (toggle_check_at treeAB []) [0]).map TreeNode.checked = some 2 ∧
    (nodeAt treeAB [0, 0]).map TreeNode.name = some "sw1" ∧
    selectedHostsOf (toggle_check_at (toggle_check_at treeAB []) [0]) = ["sw1"] :=
  ⟨rfl, rfl, rfl⟩

/-! ## C2: limit pattern disambiguation -/

mutual
theorem vis_eq_all : ∀ (t : TreeNode) (top : Option String) (isRoot : Bool),
    wellExpandedB t = true →
      checkedHostPairsVis t top isRoot = checkedHostPairsAll t top isRoot
  | .node n k e c ch, top, isRoot, h => by
    simp only [wellExpandedB, Bool.and_eq_true] at h
    rw [checkedHostPairsVis, checkedHostPairsAll]
    cases ch with
    | nil => simp [checkedHostPairsVisList, checkedHostPairsAllList]
    | cons t2 ts2 =>
      have hg : (k == "group" && e) = true := by
        simpa [TreeList.isNil] using h.1
      rw [Bool.and_eq_true] at hg
      simp only [hg.1, hg.2, Bool.true_and, if_true]
      congr 1
      exact visList_eq_allList (TreeList.cons t2 ts2) _ h.2
theorem visList_eq_allList : ∀ (ts : TreeList) (top : Option String),
    wellExpandedList ts = true →
      checkedHostPairsVisList ts top = checkedHostPairsAllList ts top
  | .nil, _, _ => rfl
  | .cons t ts, top, h => by
    simp only [wellExpandedList, Bool.and_eq_true] at h
    rw [checkedHostPairsVisList, checkedHostPairsAllList,
      vis_eq_all t top false h.1, visList_eq_allList ts top h.2]
end

/-- C2 amended: `get_selected_limit_patterns` walks the current flat
    (visible) view, so it emits one token per **visible** checked host —
    bare when the name occurs once among the collected pairs, qualified as
    "topLevelGroup:&host" when it occurs more than once with a truthy
    top-level group — de-duplicated preserving first-seen order.  Whenever
    every node with children is an expanded group (in particular within the
    default auto-expand depth), the visible walk coincides with the
    full-tree walk the claim describes; the two concrete two-site examples
    hold.  A checked host inside a collapsed group is silently omitted (see
    the counterexample). -/
theorem limit_patterns_spec :
    (∀ (p : TreePane) (r : TreeNode), p.root = some r → wellExpandedB r = true →
      get_selected_limit_patterns p =
        dedupFirst (emitPatterns (checkedHostPairsAll r none true))) ∧
    get_selected_limit_patterns paneBoth = ["A:&sw1", "B:&sw1"] ∧
    get_selected_limit_patterns paneOne = ["sw1"] := by
  refine ⟨?_, rfl, rfl⟩
  intro p r hroot hwell
  simp only [get_selected_limit_patterns, hroot]
  rw [vis_eq_all r none true hwell]

/-- C2 witness: for the fully expanded two-site pane the visible walk and
    the full-tree walk produce the same patterns. -/
theorem limit_patterns_spec_witness :
    get_selected_limit_patterns paneBoth =
      dedupFirst (emitPatterns (checkedHostPairsAll (rootOf paneBoth) none true)) :=
  limit_patterns_spec.1 paneBoth (rootOf paneBoth) rfl rfl

/-- C2 counterexample: rawA loaded with expand depth 0 and its root toggled:
    the host sw1 is Checked (collect_hosts reports it) but every group is
    collapsed, so get_selected_limit_patterns returns [] instead of the
    claimed ["sw1"] — the result does depend on which groups are expanded. -/
theorem limit_patterns_counterexample :
    (rootOf paneCollapsed).expanded = false ∧
    collect_hosts (rootOf paneCollapsed) = ["sw1"] ∧
    get_selected_limit_patterns paneCollapsed = [] :=
  ⟨rfl, rfl, rfl⟩

end AutoM8
